import Mathlib

/-!
Verification of the chain-of-responsibility and ETL abstractions of
`tgedr_dataops_abs` (files `chain.py`, `etl.py`, `source.py`, `sink.py`,
`store.py`, `processor.py`).

Handlers live on a heap: each handler is identified by a natural number and
the heap state `Nat → Option Nat` records, for each handler, its `_next`
reference (`none` when no next handler is installed).  Handler actions
(`process`, `get`, `put`) are modelled as functions from a context to
`Except` (an exception or an updated context together with a returned
value).  Recursion through the heap is fuelled, mirroring the host call
stack: every theorem assumes enough fuel for the chain at hand.
-/

namespace DataopsAbs

/-- `self._next = handler`: pointwise update of the heap state. -/
def setNext (st : Nat → Option Nat) (n : Nat) (v : Option Nat) : Nat → Option Nat :=
  fun k => if k = n then v else st k

/-- `ChainMixin.next` (`chain.py`): if this handler has no next handler yet,
install `h` as its next; otherwise delegate the call to the current next
handler, so the append lands at the tail.  Returns the updated heap. -/
def link : Nat → (Nat → Option Nat) → Nat → Nat → (Nat → Option Nat)
  | 0, st, _, _ => st
  | fuel + 1, st, n, h =>
    match st n with
    | none => setNext st n (some h)
    | some m => link fuel st m h

/-- `ChainMixin.next` returns `self`, so a chained call such as
`a.next(b).next(c)` is issued against the same receiver `a`.  `nextCall`
returns the updated heap together with the returned reference. -/
def nextCall (fuel : Nat) (st : Nat → Option Nat) (n h : Nat) :
    (Nat → Option Nat) × Nat :=
  (link fuel st n h, n)

/-- Building a chain by a sequence of `next` calls.  Each element of the
list carries the handler to link and a flag choosing the receiver of the
call: `true` issues the call on the original head (`h1.next(h2); h1.next(h3)`),
`false` issues it on the value returned by the previous call
(`h1.next(h2).next(h3)`).  `cur` is the value returned by the previous call. -/
def buildChain : Nat → (Nat → Option Nat) → Nat → Nat → List (Nat × Bool) →
    (Nat → Option Nat) × Nat
  | _, st, _, cur, [] => (st, cur)
  | fuel, st, head, cur, (h, onHead) :: rest =>
    let receiver := if onHead then head else cur
    let p := nextCall fuel st receiver h
    buildChain fuel p.1 head p.2 rest

/-- Outcome of a chain execution: either an exception raised by a handler
action propagates unchanged, or the host recursion limit is hit (models
Python's `RecursionError`; never reached under the fuel bounds assumed by
the theorems below). -/
inductive RunErr (E : Type) where
  | raised (e : E)
  | recursionLimit
deriving DecidableEq, Repr

/-- `ProcessorChainMixin.execute` (`chain.py`): run `self.process(context)`;
if it raises, the exception propagates; otherwise, if a next handler is
installed, invoke `execute` on it with the same context.  The function has
no `return` statement, so its own returned value is `none` (Python `None`);
the values returned by `process` and by the recursive `execute` are
discarded.  The first component of the result is the trace of handlers
whose `process` was actually invoked, in invocation order. -/
def pexec {Ctx E V : Type} : Nat → (Nat → Option Nat) →
    (Nat → Ctx → Except E (Ctx × V)) → Nat → Ctx →
    List Nat × Except (RunErr E) (Ctx × Option V)
  | 0, _, _, _, _ => ([], Except.error RunErr.recursionLimit)
  | fuel + 1, st, procs, n, ctx =>
    match procs n ctx with
    | Except.error e => ([n], Except.error (RunErr.raised e))
    | Except.ok (ctx2, _) =>
      match st n with
      | none => ([n], Except.ok (ctx2, none))
      | some m =>
        let r := pexec fuel st procs m ctx2
        (n :: r.1,
          match r.2 with
          | Except.error e => Except.error e
          | Except.ok (c, _) => Except.ok (c, none))

/-- The heap `st` links the handlers of `l` into a well-formed singly linked
chain: each handler's `_next` points at its successor in `l` and the last
handler of `l` has no next handler. -/
inductive IsChain (st : Nat → Option Nat) : List Nat → Prop
  | single (n : Nat) (h : st n = none) : IsChain st [n]
  | cons (n m : Nat) (rest : List Nat) (h : st n = some m)
      (t : IsChain st (m :: rest)) : IsChain st (n :: m :: rest)

theorem IsChain.head_none {st : Nat → Option Nat} {n : Nat}
    (h : IsChain st [n]) : st n = none := by
  cases h with
  | single _ h => exact h

theorem IsChain.head_some {st : Nat → Option Nat} {n m : Nat} {rest : List Nat}
    (h : IsChain st (n :: m :: rest)) : st n = some m ∧ IsChain st (m :: rest) := by
  cases h with
  | cons _ _ _ h t => exact ⟨h, t⟩

/-- Linking a fresh handler `h` onto a chain headed at `hd` appends `h` at
the tail of that chain and leaves every handler outside the chain
untouched. -/
theorem link_isChain (tl : List Nat) : ∀ (fuel : Nat) (st : Nat → Option Nat)
    (hd h : Nat), IsChain st (hd :: tl) → (hd :: tl).Nodup → h ∉ hd :: tl →
    st h = none → (hd :: tl).length ≤ fuel →
    IsChain (link fuel st hd h) ((hd :: tl) ++ [h]) ∧
      ∀ x, x ∉ hd :: tl → link fuel st hd h x = st x := by
  induction tl with
  | nil =>
    intro fuel st hd h hchain _ hmem hfresh hfuel
    match fuel, hfuel with
    | fuel + 1, _ =>
      have hnone : st hd = none := hchain.head_none
      have hne : h ≠ hd := by
        intro he; exact hmem (he ▸ List.mem_singleton.mpr rfl)
      constructor
      · show IsChain (link (fuel + 1) st hd h) [hd, h]
        have hlk : link (fuel + 1) st hd h = setNext st hd (some h) := by
          simp [link, hnone]
        rw [hlk]
        refine IsChain.cons hd h [] ?_ (IsChain.single h ?_)
        · simp [setNext]
        · simp [setNext, hne, hfresh]
      · intro x hx
        have hxne : x ≠ hd := by
          intro he; exact hx (he ▸ List.mem_singleton.mpr rfl)
        simp [link, hnone, setNext, hxne]
  | cons m tl ih =>
    intro fuel st hd h hchain hnodup hmem hfresh hfuel
    match fuel, hfuel with
    | fuel + 1, hfuel =>
      obtain ⟨hhd, htail⟩ := hchain.head_some
      have hlk : link (fuel + 1) st hd h = link fuel st m h := by
        simp [link, hhd]
      have hnodup' : (m :: tl).Nodup := hnodup.of_cons
      have hmem' : h ∉ m :: tl := fun hc => hmem (List.mem_cons_of_mem _ hc)
      have hfuel' : (m :: tl).length ≤ fuel := by
        simpa using Nat.le_of_succ_le_succ hfuel
      obtain ⟨hch, hframe⟩ := ih fuel st m h htail hnodup' hmem' hfresh hfuel'
      have hhdnot : hd ∉ m :: tl := (List.nodup_cons.mp hnodup).1
      constructor
      · show IsChain (link (fuel + 1) st hd h) ((hd :: m :: tl) ++ [h])
        rw [hlk]
        have : (hd :: m :: tl) ++ [h] = hd :: ((m :: tl) ++ [h]) := rfl
        rw [this]
        have hnext : link fuel st m h hd = some m := by
          rw [hframe hd hhdnot]; exact hhd
        cases tl with
        | nil => exact IsChain.cons hd m [h] hnext hch
        | cons a tla => exact IsChain.cons hd m (a :: (tla ++ [h])) hnext hch
      · intro x hx
        rw [hlk]
        have hx' : x ∉ m :: tl := fun hc => hx (List.mem_cons_of_mem _ hc)
        exact hframe x hx'

/-- Folding `link` calls issued on the head `hd` over a list of fresh,
distinct handlers extends the chain by exactly that list, in order. -/
theorem foldl_link_isChain (rest : List Nat) : ∀ (st : Nat → Option Nat)
    (hd : Nat) (tl : List Nat), IsChain st (hd :: tl) →
    ((hd :: tl) ++ rest).Nodup → (∀ x ∈ rest, st x = none) →
    ∀ fuel, (hd :: tl).length + rest.length ≤ fuel →
    IsChain (List.foldl (fun s h => link fuel s hd h) st rest) ((hd :: tl) ++ rest) := by
  induction rest with
  | nil =>
    intro st hd tl hchain _ _ fuel _
    simpa using hchain
  | cons h rest ih =>
    intro st hd tl hchain hnodup hfresh fuel hfuel
    have hassoc : (hd :: tl) ++ h :: rest = ((hd :: tl) ++ [h]) ++ rest := by
      simp
    have hnodup0 : (hd :: tl).Nodup := hnodup.sublist (List.sublist_append_left _ _)
    have hmem : h ∉ hd :: tl := by
      have hdisj := List.disjoint_of_nodup_append hnodup
      intro hc
      exact hdisj hc (List.mem_cons_self h rest)
    have hfuel0 : (hd :: tl).length ≤ fuel := by
      calc (hd :: tl).length ≤ (hd :: tl).length + (h :: rest).length :=
            Nat.le_add_right _ _
        _ ≤ fuel := hfuel
    obtain ⟨hch, hframe⟩ := link_isChain tl fuel st hd h hchain hnodup0 hmem
      (hfresh h (List.mem_cons_self h rest)) hfuel0
    have hstep : List.foldl (fun s g => link fuel s hd g) st (h :: rest) =
        List.foldl (fun s g => link fuel s hd g) (link fuel st hd h) rest := rfl
    rw [hstep, hassoc]
    have htl' : (hd :: tl) ++ [h] = hd :: (tl ++ [h]) := rfl
    rw [htl'] at hch ⊢
    refine ih (link fuel st hd h) hd (tl ++ [h]) hch ?_ ?_ fuel ?_
    · rw [← htl', ← hassoc]; exact hnodup
    · intro x hx
      have hx0 : x ∉ hd :: tl := by
        have hdisj := List.disjoint_of_nodup_append hnodup
        intro hc
        exact hdisj hc (List.mem_cons_of_mem h hx)
      rw [hframe x hx0]
      exact hfresh x (List.mem_cons_of_mem h hx)
    · simp [List.length_append] at hfuel ⊢
      omega

/-- Executing the head of a well-formed chain with handlers that never
raise visits exactly the handlers of the chain, in chain order. -/
theorem pexec_trace {Ctx E V : Type} (l : List Nat) :
    ∀ (fuel : Nat) (st : Nat → Option Nat)
    (procs : Nat → Ctx → Except E (Ctx × V)) (ctx : Ctx) (hd : Nat) (tl : List Nat),
    l = hd :: tl → IsChain st l → l.length ≤ fuel →
    (∀ n c, ∃ p, procs n c = Except.ok p) →
    (pexec fuel st procs hd ctx).1 = l := by
  induction l with
  | nil => intro _ _ _ _ _ _ he; exact absurd he (by simp)
  | cons a l ih =>
    intro fuel st procs ctx hd tl heq hchain hfuel hok
    injection heq with h1 h2
    subst h1; subst h2
    match fuel, hfuel with
    | fuel + 1, hfuel =>
      obtain ⟨⟨c2, v⟩, hpc⟩ := hok a ctx
      cases l with
      | nil =>
        have hnone : st a = none := hchain.head_none
        simp [pexec, hpc, hnone]
      | cons m tl =>
        obtain ⟨hhd, htail⟩ := hchain.head_some
        have hfuel' : (m :: tl).length ≤ fuel := by
          simpa using Nat.le_of_succ_le_succ hfuel
        have := ih fuel st procs c2 m tl rfl htail hfuel' hok
        simp [pexec, hpc, hhd, this]

/-- Because `next` returns `self`, every call in a `buildChain` sequence is
issued against the original head, whichever grouping the flags choose: the
resulting heap is the plain fold of `link` calls on the head, and the value
the last call returns is the head itself. -/
theorem buildChain_eq_foldl (pairs : List (Nat × Bool)) :
    ∀ (fuel : Nat) (st : Nat → Option Nat) (hd : Nat),
    buildChain fuel st hd hd pairs =
      (List.foldl (fun s h => link fuel s hd h) st (pairs.map Prod.fst), hd) := by
  induction pairs with
  | nil => intro fuel st hd; rfl
  | cons p rest ih =>
    intro fuel st hd
    obtain ⟨h, onHead⟩ := p
    have hrecv : (if onHead then hd else hd) = hd := by cases onHead <;> rfl
    simp only [buildChain, nextCall, hrecv]
    exact ih fuel (link fuel st hd h) hd

/-- C1: linking distinct fresh handlers `h1 :: rest` by repeated `next`
calls — each issued either on `h1` or on the value returned by the previous
call, in any mixture — and then executing `h1` with handlers that never
raise visits `h1 :: rest` in exactly that order, each handler exactly
once. -/
theorem chain_append_order {Ctx E V : Type} (h1 : Nat) (rest : List Nat)
    (flags : List Bool) (st0 : Nat → Option Nat) (fuel : Nat)
    (procs : Nat → Ctx → Except E (Ctx × V)) (ctx : Ctx)
    (hnodup : (h1 :: rest).Nodup)
    (hfresh : ∀ x ∈ h1 :: rest, st0 x = none)
    (hfuel : (h1 :: rest).length ≤ fuel)
    (hflags : flags.length = rest.length)
    (hok : ∀ n c, ∃ p, procs n c = Except.ok p) :
    (pexec fuel (buildChain fuel st0 h1 h1 (rest.zip flags)).1 procs h1 ctx).1 =
      h1 :: rest := by
  have hmap : (rest.zip flags).map Prod.fst = rest :=
    List.map_fst_zip rest flags (le_of_eq hflags.symm)
  rw [buildChain_eq_foldl]
  rw [hmap]
  have hch0 : IsChain st0 [h1] :=
    IsChain.single h1 (hfresh h1 (List.mem_cons_self _ _))
  have hfoldl := foldl_link_isChain rest st0 h1 [] hch0 (by simpa using hnodup)
    (fun x hx => hfresh x (List.mem_cons_of_mem _ hx)) fuel
    (by simp at hfuel ⊢; omega)
  exact pexec_trace (h1 :: rest) fuel _ procs ctx h1 rest rfl
    (by simpa using hfoldl) hfuel hok

/-- Witness for C1 at a concrete mixed grouping: handlers `0, 1, 2`, where
`1` is linked by a call on the head and `2` by a call chained on the
returned value. -/
theorem chain_append_order_witness :
    (pexec 3 (buildChain 3 (fun _ => none) 0 0 ([1, 2].zip [true, false])).1
      (fun n (c : Nat) => (Except.ok (Prod.mk c n) : Except Unit (Nat × Nat))) 0 0).1 =
      [0, 1, 2] :=
  chain_append_order 0 [1, 2] [true, false] (fun _ => none) 3
    (fun n (c : Nat) => (Except.ok (Prod.mk c n) : Except Unit (Nat × Nat))) 0
    (by decide) (fun x _ => rfl) (by decide) (by decide)
    (fun n c => ⟨Prod.mk c n, rfl⟩)

/-- C4: if the handlers before `k` never raise but `k`'s own action raises
`e`, executing the head of the chain invokes exactly the handlers up to and
including `k` — the handlers after `k` are never invoked — and the
exception observed by the caller is exactly the one `k` raised, not
wrapped in any other exception kind. -/
theorem chain_fail_fast {Ctx E V : Type} (pre : List Nat) :
    ∀ (post : List Nat) (k : Nat) (st : Nat → Option Nat) (fuel : Nat)
    (procs : Nat → Ctx → Except E (Ctx × V)) (ctx : Ctx) (e : E),
    IsChain st (pre ++ k :: post) → (pre ++ k :: post).Nodup →
    (pre ++ k :: post).length ≤ fuel →
    (∀ n ∈ pre, ∀ c, ∃ p, procs n c = Except.ok p) →
    (∀ c, procs k c = Except.error e) →
    pexec fuel st procs ((pre ++ k :: post).headI) ctx =
        (pre ++ [k], Except.error (RunErr.raised e)) ∧
      ∀ j ∈ post, j ∉ pre ++ [k] := by
  induction pre with
  | nil =>
    intro post k st fuel procs ctx e hchain hnodup hfuel _ hk
    match fuel, hfuel with
    | fuel + 1, _ =>
      refine ⟨by simp [pexec, hk ctx], ?_⟩
      intro j hj
      simp only [List.nil_append] at hnodup
      have := (List.nodup_cons.mp hnodup).1
      simp only [List.nil_append, List.mem_singleton]
      intro he
      exact this (he ▸ hj)
  | cons p pre ih =>
    intro post k st fuel procs ctx e hchain hnodup hfuel hpre hk
    match fuel, hfuel with
    | fuel + 1, hfuel =>
      have hsh : (p :: pre) ++ k :: post = p :: (pre ++ k :: post) := rfl
      rw [hsh] at hchain hnodup
      have hne : pre ++ k :: post ≠ [] := by simp
      obtain ⟨m, tl, hmtl⟩ : ∃ m tl, pre ++ k :: post = m :: tl :=
        List.exists_cons_of_ne_nil hne
      rw [hmtl] at hchain
      obtain ⟨hp, htail⟩ := hchain.head_some
      obtain ⟨⟨c2, v⟩, hpc⟩ := hpre p (List.mem_cons_self _ _) ctx
      have hfuel' : (pre ++ k :: post).length ≤ fuel := by
        rw [hsh] at hfuel
        simpa using Nat.le_of_succ_le_succ hfuel
      have hih := ih post k st fuel procs c2 e (hmtl ▸ htail) hnodup.of_cons hfuel'
        (fun n hn c => hpre n (List.mem_cons_of_mem _ hn) c) hk
      obtain ⟨hrun, hpost⟩ := hih
      constructor
      · have hhead : ((p :: pre) ++ k :: post).headI = p := rfl
        have hm : st p = some ((pre ++ k :: post).headI) := by
          rw [hmtl]; exact hp
        rw [hhead]
        show pexec (fuel + 1) st procs p ctx = ((p :: pre) ++ [k],
          Except.error (RunErr.raised e))
        simp only [pexec, hpc, hm]
        rw [hrun]
        simp
      · intro j hj
        have hjk := hpost j hj
        have hjp : j ≠ p := by
          intro he
          have hpn : p ∉ pre ++ k :: post := (List.nodup_cons.mp hnodup).1
          exact hpn (he ▸ (List.mem_append_right _ (List.mem_cons_of_mem _ hj)))
        simp only [List.cons_append, List.mem_cons]
        rintro (he | hmem)
        · exact hjp he
        · exact hjk hmem

/-- Witness for C4: chain `0 → 1 → 2` where handler `1` raises exception
`7`; execution visits `[0, 1]`, never reaches `2`, and the caller observes
exactly exception `7`. -/
theorem chain_fail_fast_witness :
    pexec 3 (fun n => if n = 0 then some 1 else if n = 1 then some 2 else none)
        (fun n (c : Nat) => if n = 1 then (Except.error 7 : Except Nat (Nat × Nat))
          else Except.ok (Prod.mk c n)) (([0] ++ 1 :: [2]).headI) 0 =
      ([0, 1], Except.error (RunErr.raised 7)) :=
  (chain_fail_fast [0] [2] 1
    (fun n => if n = 0 then some 1 else if n = 1 then some 2 else none) 3
    (fun n (c : Nat) => if n = 1 then (Except.error 7 : Except Nat (Nat × Nat))
      else Except.ok (Prod.mk c n)) 0 7
    (IsChain.cons 0 1 [2] rfl (IsChain.cons 1 2 [] rfl (IsChain.single 2 rfl)))
    (by decide) (by decide)
    (by intro n hn c; simp at hn; subst hn; exact ⟨Prod.mk c 0, rfl⟩)
    (fun c => rfl)).1

/-- C10: `ProcessorChainMixin.execute` has no `return` statement, so
whenever execution of a chain succeeds its returned value is `none`
(Python `None`) — on a single-handler chain, at the last handler of any
chain, and whatever values the handlers' `process` actions return. -/
theorem chain_execute_returns_none {Ctx E V : Type} (fuel : Nat)
    (st : Nat → Option Nat) (procs : Nat → Ctx → Except E (Ctx × V))
    (n : Nat) (ctx : Ctx) (c : Ctx) (x : Option V)
    (h : (pexec fuel st procs n ctx).2 = Except.ok (Prod.mk c x)) :
    x = none := by
  match fuel with
  | 0 => simp [pexec] at h
  | fuel + 1 =>
    simp only [pexec] at h
    cases hpc : procs n ctx with
    | error e => rw [hpc] at h; simp at h
    | ok p =>
      obtain ⟨c2, v⟩ := p
      rw [hpc] at h
      cases hst : st n with
      | none => rw [hst] at h; simp at h; exact h.2.symm
      | some m =>
        rw [hst] at h
        simp only at h
        cases hr : (pexec fuel st procs m c2).2 with
        | error e => rw [hr] at h; simp at h
        | ok q =>
          obtain ⟨c3, w⟩ := q
          rw [hr] at h
          simp at h
          exact h.2.symm

/-- Witness for C10 on a concrete single-handler chain whose `process`
returns the value `42`: the chain execution still returns `none`. -/
theorem chain_execute_returns_none_witness : (none : Option Nat) = none :=
  chain_execute_returns_none 1 (fun _ => none)
    (fun _ (c : Nat) => (Except.ok (Prod.mk c 42) : Except Unit (Nat × Nat)))
    0 5 5 none rfl

/-- `SourceChain.execute` (`source.py`): `return self.get(context=context)`.
The handler's `_next` reference (`st`) is available on the object but the
method body never consults it, so the result is `get`'s result and the
trace contains only this handler. -/
def sourceChainExec {Ctx E V : Type} (gets : Nat → Ctx → Except E (Ctx × V))
    (st : Nat → Option Nat) (n : Nat) (ctx : Ctx) :
    List Nat × Except E (Ctx × V) :=
  let _ := st
  ([n], gets n ctx)

/-- `SinkChain.execute` (`sink.py`): `return self.put(context=context)`.
As with `SourceChain`, `_next` is never consulted. -/
def sinkChainExec {Ctx E V : Type} (puts : Nat → Ctx → Except E (Ctx × V))
    (st : Nat → Option Nat) (n : Nat) (ctx : Ctx) :
    List Nat × Except E (Ctx × V) :=
  let _ := st
  ([n], puts n ctx)

/-- C6 (amended): of the three chainable role compositions only
`ProcessorChain` continues down the chain: its `execute` performs `process`
and, when a next handler is installed, invokes `execute` on it with the
context produced by its own action.  `SourceChain.execute` and
`SinkChain.execute` perform `get`/`put` respectively and return that
result, without invoking the next handler even when one is installed. -/
theorem chain_compositions_execute {Ctx E V : Type}
    (gets puts procs : Nat → Ctx → Except E (Ctx × V))
    (st : Nat → Option Nat) (n m : Nat) (ctx c : Ctx) (v : V) (fuel : Nat)
    (hnext : st n = some m) (hok : procs n ctx = Except.ok (Prod.mk c v)) :
    sourceChainExec gets st n ctx = (Prod.mk [n] (gets n ctx)) ∧
    sinkChainExec puts st n ctx = (Prod.mk [n] (puts n ctx)) ∧
    (pexec (fuel + 1) st procs n ctx).1 = n :: (pexec fuel st procs m c).1 := by
  refine ⟨rfl, rfl, ?_⟩
  simp [pexec, hok, hnext]

/-- Witness for C6 (amended) at a concrete two-handler heap `0 → 1`. -/
theorem chain_compositions_execute_witness :
    sourceChainExec (fun k (c : Nat) => (Except.ok (Prod.mk c k) : Except Unit (Nat × Nat)))
        (fun k => if k = 0 then some 1 else none) 0 9 =
      (Prod.mk [0] (Except.ok (Prod.mk 9 0))) :=
  (chain_compositions_execute
    (fun k (c : Nat) => (Except.ok (Prod.mk c k) : Except Unit (Nat × Nat)))
    (fun k (c : Nat) => Except.ok (Prod.mk c k))
    (fun k (c : Nat) => Except.ok (Prod.mk c k))
    (fun k => if k = 0 then some 1 else none) 0 1 9 9 0 1 rfl rfl).1

/-- Counterexample to C6 as stated: a `SourceChain` handler `0` whose
`_next` is handler `1`; invoking `execute` on it visits only `[0]` — the
installed next handler `1` is never invoked, so execution does not
continue down the chain for the Source composition. -/
theorem chain_compositions_execute_cex :
    (fun k => if k = 0 then some 1 else none) 0 = some 1 ∧
    (sourceChainExec
        (fun k (c : Nat) => (Except.ok (Prod.mk c k) : Except Unit (Nat × Nat)))
        (fun k => if k = 0 then some 1 else none) 0 9).1 = [0] ∧
    1 ∉ (sourceChainExec
        (fun k (c : Nat) => (Except.ok (Prod.mk c k) : Except Unit (Nat × Nat)))
        (fun k => if k = 0 then some 1 else none) 0 9).1 := by
  refine ⟨rfl, rfl, ?_⟩
  decide

/-!
## ETL template (`etl.py`)

An `Etl` instance is modelled by its five phase methods.  Each phase acts
on the instance state `S` (the instance's own mutable attributes, which
persist even when the phase raises) and either raises an exception `E` or
returns a value `V`.
-/

/-- The five phase methods of an `Etl` subclass. -/
structure EtlOps (S E V : Type) where
  extract : S → S × Except E V
  validate_extract : S → S × Except E V
  transform : S → S × Except E V
  validate_transform : S → S × Except E V
  load : S → S × Except E V

/-- `Etl.run` (`etl.py`): call `extract`, `validate_extract`, `transform`,
`validate_transform`, `load` in that order, discarding every phase's
return value except `load`'s, which is returned.  There is no exception
handler: an exception raised by any phase propagates unchanged to the
caller, aborting the sequence and leaving the instance in the state the
failing phase produced. -/
def Etl.run {S E V : Type} (ops : EtlOps S E V) (s : S) : S × Except E V :=
  let p1 := ops.extract s
  match p1.2 with
  | Except.error e => (p1.1, Except.error e)
  | Except.ok _ =>
    let p2 := ops.validate_extract p1.1
    match p2.2 with
    | Except.error e => (p2.1, Except.error e)
    | Except.ok _ =>
      let p3 := ops.transform p2.1
      match p3.2 with
      | Except.error e => (p3.1, Except.error e)
      | Except.ok _ =>
        let p4 := ops.validate_transform p3.1
        match p4.2 with
        | Except.error e => (p4.1, Except.error e)
        | Except.ok _ => ops.load p4.1

/-- The exception domain of the ETL model.  The source defines only
`EtlException`; `workflowErr` exists so that the spec's claimed
workflow-level wrapper is expressible (the source never constructs such a
wrapper). -/
inductive EtlErr where
  | etlExc (missing : List String)
  | userErr (tag : String)
  | workflowErr (inner : String)
deriving DecidableEq, Repr

/-- `true` exactly on the spec's claimed workflow-level wrapper kind. -/
def EtlErr.isWorkflow : EtlErr → Bool
  | EtlErr.workflowErr _ => true
  | _ => false

/-- An instrumented `Etl` instance: state is a payload plus the trace of
invoked phases; each phase appends its own name, updates the payload by
`upd` and returns `out` of the incoming payload, never raising. -/
def recOps (upd out : String → Nat → Nat) : EtlOps (Nat × List String) EtlErr Nat :=
  { extract := fun s =>
      (Prod.mk (upd "extract" s.1) (s.2 ++ ["extract"]), Except.ok (out "extract" s.1))
    validate_extract := fun s =>
      (Prod.mk (upd "validate_extract" s.1) (s.2 ++ ["validate_extract"]),
        Except.ok (out "validate_extract" s.1))
    transform := fun s =>
      (Prod.mk (upd "transform" s.1) (s.2 ++ ["transform"]),
        Except.ok (out "transform" s.1))
    validate_transform := fun s =>
      (Prod.mk (upd "validate_transform" s.1) (s.2 ++ ["validate_transform"]),
        Except.ok (out "validate_transform" s.1))
    load := fun s =>
      (Prod.mk (upd "load" s.1) (s.2 ++ ["load"]), Except.ok (out "load" s.1)) }

/-- C3: on an instance whose five phases record their invocation order and
never raise, `run` invokes exactly `extract, validate_extract, transform,
validate_transform, load` in that order, and `run`'s return value equals
`load`'s return value (the second conjunct evaluates `load` directly at
the state `run` hands it). -/
theorem etl_run_sequencing (upd out : String → Nat → Nat) (n : Nat) :
    Etl.run (recOps upd out) (Prod.mk n []) =
      (Prod.mk
        (upd "load" (upd "validate_transform" (upd "transform"
          (upd "validate_extract" (upd "extract" n)))))
        ["extract", "validate_extract", "transform", "validate_transform", "load"],
       Except.ok (out "load" (upd "validate_transform" (upd "transform"
          (upd "validate_extract" (upd "extract" n)))))) ∧
    (Etl.run (recOps upd out) (Prod.mk n [])).2 =
      ((recOps upd out).load (Prod.mk
        (upd "validate_transform" (upd "transform"
          (upd "validate_extract" (upd "extract" n))))
        ["extract", "validate_extract", "transform", "validate_transform"])).2 :=
  ⟨rfl, rfl⟩

/-- C7 (amended): if a phase raises, `run` propagates exactly that
exception to its caller — it has no handler, so nothing is wrapped — the
following phases are never invoked, and the instance keeps the state the
failing phase left behind. -/
theorem etl_run_error_propagation {S E V : Type} (ops : EtlOps S E V) (s : S) :
    (∀ s1 e, ops.extract s = (s1, Except.error e) →
      Etl.run ops s = (s1, Except.error e)) ∧
    (∀ s1 v1 s2 e, ops.extract s = (s1, Except.ok v1) →
      ops.validate_extract s1 = (s2, Except.error e) →
      Etl.run ops s = (s2, Except.error e)) ∧
    (∀ s1 v1 s2 v2 s3 e, ops.extract s = (s1, Except.ok v1) →
      ops.validate_extract s1 = (s2, Except.ok v2) →
      ops.transform s2 = (s3, Except.error e) →
      Etl.run ops s = (s3, Except.error e)) ∧
    (∀ s1 v1 s2 v2 s3 v3 s4 e, ops.extract s = (s1, Except.ok v1) →
      ops.validate_extract s1 = (s2, Except.ok v2) →
      ops.transform s2 = (s3, Except.ok v3) →
      ops.validate_transform s3 = (s4, Except.error e) →
      Etl.run ops s = (s4, Except.error e)) ∧
    (∀ s1 v1 s2 v2 s3 v3 s4 v4 r, ops.extract s = (s1, Except.ok v1) →
      ops.validate_extract s1 = (s2, Except.ok v2) →
      ops.transform s2 = (s3, Except.ok v3) →
      ops.validate_transform s3 = (s4, Except.ok v4) →
      ops.load s4 = r → Etl.run ops s = r) := by
  refine ⟨?_, ?_, ?_, ?_, ?_⟩
  · intro s1 e h1
    simp [Etl.run, h1]
  · intro s1 v1 s2 e h1 h2
    simp [Etl.run, h1, h2]
  · intro s1 v1 s2 v2 s3 e h1 h2 h3
    simp [Etl.run, h1, h2, h3]
  · intro s1 v1 s2 v2 s3 v3 s4 e h1 h2 h3 h4
    simp [Etl.run, h1, h2, h3, h4]
  · intro s1 v1 s2 v2 s3 v3 s4 v4 r h1 h2 h3 h4 h5
    simp [Etl.run, h1, h2, h3, h4, h5]

/-- A concrete instrumented instance whose `transform` raises
`userErr "boom"`. -/
def etlCexOps : EtlOps (List String) EtlErr Nat :=
  { extract := fun tr => (tr ++ ["extract"], Except.ok 0)
    validate_extract := fun tr => (tr ++ ["validate_extract"], Except.ok 0)
    transform := fun tr =>
      (tr ++ ["transform"], Except.error (EtlErr.userErr "boom"))
    validate_transform := fun tr => (tr ++ ["validate_transform"], Except.ok 0)
    load := fun tr => (tr ++ ["load"], Except.ok 7) }

/-- Witness for C7 (amended): applying the propagation theorem to
`etlCexOps`, whose `transform` raises, shows `run` returning exactly that
exception with `validate_transform` and `load` absent from the trace. -/
theorem etl_run_error_propagation_witness :
    Etl.run etlCexOps [] =
      (["extract", "validate_extract", "transform"],
        Except.error (EtlErr.userErr "boom")) :=
  (etl_run_error_propagation etlCexOps []).2.2.1
    ["extract"] 0 ["extract", "validate_extract"] 0
    ["extract", "validate_extract", "transform"] (EtlErr.userErr "boom")
    rfl rfl rfl

/-- Counterexample to C7 as stated: on `etlCexOps` the exception observed
by `run`'s caller is exactly `userErr "boom"`, which is not of the
workflow-level wrapper kind — no `WorkflowError` wrapping exists in
`Etl.run` — while the phases after the failing one are indeed never
invoked. -/
theorem etl_run_wraps_cex :
    Etl.run etlCexOps [] =
      (["extract", "validate_extract", "transform"],
        Except.error (EtlErr.userErr "boom")) ∧
    (EtlErr.userErr "boom").isWorkflow = false :=
  ⟨rfl, rfl⟩

/-!
## Configuration injection (`Etl.inject_configuration`, `etl.py`)

Python values are modelled by `PyVal` (with `pyNone` for `None`), a Python
`dict` by an insertion-ordered association list, and a declared parameter
by its name together with its optional declared default (`none` models
`inspect._empty`, i.e. no default; `some PyVal.pyNone` models an explicit
default of `None`).
-/

/-- A Python value: `None`, a number or a string. -/
inductive PyVal where
  | pyNone
  | nat (n : Nat)
  | str (s : String)
deriving DecidableEq, Repr

/-- Key lookup in an insertion-ordered dict. -/
def dictLookup (d : List (String × PyVal)) (k : String) : Option PyVal :=
  match d with
  | [] => none
  | (k2, v) :: rest => if k2 = k then some v else dictLookup rest k

/-- Dict assignment `d[k] = v`: overwrite in place when the key exists,
append otherwise. -/
def dictSet (d : List (String × PyVal)) (k : String) (v : PyVal) :
    List (String × PyVal) :=
  match d with
  | [] => [(k, v)]
  | (k2, v2) :: rest =>
    if k2 = k then (k, v) :: rest else (k2, v2) :: dictSet rest k v

/-- The loop body of `inject_configuration` over the declared parameters
(`self` excluded), accumulating `missing_params` and the `params` dict: a
parameter with a default contributes its default; one without a default
contributes `None` and is recorded as missing when the configuration is
absent or lacks its name; in either case a configuration entry with the
parameter's name overrides the tentative value. -/
def injectLoop (config : Option (List (String × PyVal))) :
    List (String × Option PyVal) → List String → List (String × PyVal) →
    List String × List (String × PyVal)
  | [], missing, vals => (missing, vals)
  | (name, dflt) :: rest, missing, vals =>
    let step :=
      match dflt with
      | some d => (missing, dictSet vals name d)
      | none =>
        let vals2 := dictSet vals name PyVal.pyNone
        match config with
        | none => (missing ++ [name], vals2)
        | some cfg =>
          if (dictLookup cfg name).isSome then (missing, vals2)
          else (missing ++ [name], vals2)
    let vals3 :=
      match config with
      | none => step.2
      | some cfg =>
        match dictLookup cfg name with
        | none => step.2
        | some v => dictSet step.2 name v
    injectLoop config rest step.1 vals3

/-- `Etl.inject_configuration` after the loop: when `missing_params` is
nonempty raise `EtlException` whose message names the whole list;
otherwise invoke the wrapped step positionally with the resolved values in
declaration order.  The error payload is the `missing_params` list that
the Python message interpolates. -/
def inject_configuration (params : List (String × Option PyVal))
    (config : Option (List (String × PyVal))) :
    Except (List String) (List PyVal) :=
  let r := injectLoop config params [] []
  if 0 < r.1.length then Except.error r.1
  else Except.ok (r.2.map (fun p => p.2))

/-- A decorated step invocation: resolve the bindings from the instance's
configuration, then apply the step body `f` to the resolved values. -/
def decoratedCall {A : Type} (f : List PyVal → A)
    (params : List (String × Option PyVal))
    (config : Option (List (String × PyVal))) : Except (List String) A :=
  match inject_configuration params config with
  | Except.error m => Except.error m
  | Except.ok vals => Except.ok (f vals)

/-- Resolution policy for one declared parameter, stated directly: a
configuration entry with the parameter's name wins; otherwise the declared
default; otherwise `None`. -/
def resolveParam (config : Option (List (String × PyVal)))
    (p : String × Option PyVal) : PyVal :=
  match config with
  | some cfg =>
    match dictLookup cfg p.1 with
    | some v => v
    | none =>
      match p.2 with
      | some d => d
      | none => PyVal.pyNone
  | none =>
    match p.2 with
    | some d => d
    | none => PyVal.pyNone

/-- The parameters that are required (no declared default) and not
supplied by the configuration, in declaration order. -/
def requiredMissing (params : List (String × Option PyVal))
    (config : Option (List (String × PyVal))) : List String :=
  params.filterMap (fun p =>
    match p.2 with
    | some _ => none
    | none =>
      match config with
      | none => some p.1
      | some cfg => if (dictLookup cfg p.1).isSome then none else some p.1)

/-- The missing-parameter accumulator of the loop collects exactly the
required parameters the configuration does not supply, after whatever it
already held. -/
theorem injectLoop_missing (params : List (String × Option PyVal)) :
    ∀ (config : Option (List (String × PyVal))) (missing : List String)
    (vals : List (String × PyVal)),
    (injectLoop config params missing vals).1 =
      missing ++ requiredMissing params config := by
  induction params with
  | nil => intro config missing vals; simp [injectLoop, requiredMissing]
  | cons p rest ih =>
    intro config missing vals
    obtain ⟨name, dflt⟩ := p
    cases dflt with
    | some d =>
      cases config with
      | none =>
        simp only [injectLoop, ih]
        simp [requiredMissing, List.filterMap_cons]
      | some cfg =>
        cases h : dictLookup cfg name with
        | none =>
          simp only [injectLoop, h, ih]
          simp [requiredMissing, List.filterMap_cons]
        | some v =>
          simp only [injectLoop, h, ih]
          simp [requiredMissing, List.filterMap_cons]
    | none =>
      cases config with
      | none =>
        simp only [injectLoop, ih]
        simp [requiredMissing, List.filterMap_cons]
      | some cfg =>
        cases h : dictLookup cfg name with
        | none =>
          simp only [injectLoop, h, ih]
          simp [requiredMissing, List.filterMap_cons, h]
        | some v =>
          simp only [injectLoop, h, ih]
          simp [requiredMissing, List.filterMap_cons, h]

theorem dictSet_not_mem (d : List (String × PyVal)) (k : String) (v : PyVal) :
    k ∉ d.map Prod.fst → dictSet d k v = d ++ [(k, v)] := by
  induction d with
  | nil => intro _; rfl
  | cons p rest ih =>
    intro hmem
    obtain ⟨k2, v2⟩ := p
    simp only [List.map_cons, List.mem_cons] at hmem
    push_neg at hmem
    have hne : k2 ≠ k := fun he => hmem.1 he.symm
    simp [dictSet, hne, ih hmem.2]

theorem dictSet_overwrite_last (d : List (String × PyVal)) (k : String)
    (v w : PyVal) : k ∉ d.map Prod.fst →
    dictSet (d ++ [(k, w)]) k v = d ++ [(k, v)] := by
  induction d with
  | nil => simp [dictSet]
  | cons p rest ih =>
    intro hmem
    obtain ⟨k2, v2⟩ := p
    simp only [List.map_cons, List.mem_cons] at hmem
    push_neg at hmem
    have hne : k2 ≠ k := fun he => hmem.1 he.symm
    simp [dictSet, hne, ih hmem.2]

/-- The `params` dict built by the loop binds each declared parameter, in
declaration order, to its resolved value under the resolution policy. -/
theorem injectLoop_vals (params : List (String × Option PyVal)) :
    ∀ (config : Option (List (String × PyVal))) (missing : List String)
    (vals : List (String × PyVal)),
    (params.map Prod.fst).Nodup →
    (∀ p ∈ params, p.1 ∉ vals.map Prod.fst) →
    (injectLoop config params missing vals).2 =
      vals ++ params.map (fun p => (p.1, resolveParam config p)) := by
  induction params with
  | nil => intro config missing vals _ _; simp [injectLoop]
  | cons p rest ih =>
    intro config missing vals hnodup hdisj
    obtain ⟨name, dflt⟩ := p
    have hname : name ∉ vals.map Prod.fst :=
      hdisj (name, dflt) (List.mem_cons_self _ _)
    have hnodup' : (rest.map Prod.fst).Nodup := by
      simpa using (List.nodup_cons.mp (by simpa using hnodup)).2
    have hnotin : name ∉ rest.map Prod.fst :=
      (List.nodup_cons.mp (by simpa using hnodup)).1
    have hdisj' : ∀ q ∈ rest, q.1 ∉
        (vals ++ [(name, resolveParam config (name, dflt))]).map Prod.fst := by
      intro q hq
      simp only [List.map_append, List.mem_append, List.map_cons, List.map_nil,
        List.mem_singleton]
      push_neg
      refine ⟨hdisj q (List.mem_cons_of_mem _ hq), ?_⟩
      intro he
      exact hnotin (he ▸ List.mem_map_of_mem Prod.fst hq)
    cases dflt with
    | some d =>
      have hset : dictSet vals name d = vals ++ [(name, d)] :=
        dictSet_not_mem vals name d hname
      cases config with
      | none =>
        have hres : resolveParam none (name, some d) = d := rfl
        simp only [injectLoop, hset]
        rw [ih none _ _ hnodup' (hres ▸ hdisj')]
        simp [hres]
      | some cfg =>
        cases h : dictLookup cfg name with
        | none =>
          have hres : resolveParam (some cfg) (name, some d) = d := by
            simp [resolveParam, h]
          simp only [injectLoop, h, hset]
          rw [ih (some cfg) _ _ hnodup' (hres ▸ hdisj')]
          simp [hres]
        | some v =>
          have hres : resolveParam (some cfg) (name, some d) = v := by
            simp [resolveParam, h]
          have hover : dictSet (vals ++ [(name, d)]) name v =
              vals ++ [(name, v)] := dictSet_overwrite_last vals name v d hname
          simp only [injectLoop, h, hset, hover]
          rw [ih (some cfg) _ _ hnodup' (hres ▸ hdisj')]
          simp [hres]
    | none =>
      have hset : dictSet vals name PyVal.pyNone = vals ++ [(name, PyVal.pyNone)] :=
        dictSet_not_mem vals name PyVal.pyNone hname
      cases config with
      | none =>
        have hres : resolveParam none (name, (none : Option PyVal)) =
            PyVal.pyNone := rfl
        simp only [injectLoop, hset]
        rw [ih none _ _ hnodup' (hres ▸ hdisj')]
        simp [hres]
      | some cfg =>
        cases h : dictLookup cfg name with
        | none =>
          have hres : resolveParam (some cfg) (name, (none : Option PyVal)) =
              PyVal.pyNone := by
            simp [resolveParam, h]
          simp only [injectLoop, h, hset]
          rw [ih (some cfg) _ _ hnodup' (hres ▸ hdisj')]
          simp [hres]
        | some v =>
          have hres : resolveParam (some cfg) (name, (none : Option PyVal)) = v := by
            simp [resolveParam, h]
          have hover : dictSet (vals ++ [(name, PyVal.pyNone)]) name v =
              vals ++ [(name, v)] :=
            dictSet_overwrite_last vals name v PyVal.pyNone hname
          simp only [injectLoop, h, Option.isSome_some, if_true, hset, hover]
          rw [ih (some cfg) _ _ hnodup' (hres ▸ hdisj')]
          simp [hres]

/-- `inject_configuration` characterised against the resolution policy:
with distinct parameter names it raises listing every required parameter
the configuration misses, and otherwise returns the resolved values in
declaration order. -/
theorem inject_configuration_eq (params : List (String × Option PyVal))
    (config : Option (List (String × PyVal)))
    (hn : (params.map Prod.fst).Nodup) :
    inject_configuration params config =
      if requiredMissing params config = [] then
        Except.ok (params.map (fun p => resolveParam config p))
      else Except.error (requiredMissing params config) := by
  have hm := injectLoop_missing params config [] []
  have hv := injectLoop_vals params config [] [] hn (by simp)
  simp only [inject_configuration, hm, List.nil_append, hv]
  cases hreq : requiredMissing params config with
  | nil => simp [List.map_map, Function.comp]
  | cons a l => simp [List.map_map, Function.comp]

/-- The declared parameters `{a (no default), b = 5}`. -/
def abParams : List (String × Option PyVal) :=
  [("a", none), ("b", some (PyVal.nat 5))]

/-- C2: on a step with parameters `{a (no default), b = 5}`: configuration
`{}` raises an error naming `a`; configuration `{a: 1}` succeeds and the
step receives `b = 5`; configuration `{a: 1, b: 9}` makes the step receive
`b = 9` — a configuration value overrides a declared default. -/
theorem etl_injection_required_default {A : Type} (f : List PyVal → A) :
    decoratedCall f abParams (some []) = Except.error ["a"] ∧
    decoratedCall f abParams (some [("a", PyVal.nat 1)]) =
      Except.ok (f [PyVal.nat 1, PyVal.nat 5]) ∧
    decoratedCall f abParams (some [("a", PyVal.nat 1), ("b", PyVal.nat 9)]) =
      Except.ok (f [PyVal.nat 1, PyVal.nat 9]) :=
  ⟨rfl, rfl, rfl⟩

/-- C5: with distinct parameter names, whenever at least one declared
parameter has no default and is not supplied by the configuration (or the
configuration is absent), the invocation raises an `EtlException` whose
payload names every such parameter — not only the first — and whenever no
such parameter exists no `EtlException` is raised and the step body runs. -/
theorem etl_injection_missing_params {A : Type} (f : List PyVal → A)
    (params : List (String × Option PyVal))
    (config : Option (List (String × PyVal)))
    (hn : (params.map Prod.fst).Nodup) :
    (requiredMissing params config ≠ [] →
      decoratedCall f params config =
        Except.error (requiredMissing params config)) ∧
    (requiredMissing params config = [] →
      decoratedCall f params config =
        Except.ok (f (params.map (fun p => resolveParam config p)))) := by
  have h := inject_configuration_eq params config hn
  constructor
  · intro hne
    simp [decoratedCall, h, hne]
  · intro he
    simp [decoratedCall, h, he]

/-- Witness for C5 on `{a (no default), b = 5, c (no default)}` with
configuration `{}`: the raised error names both `a` and `c`. -/
theorem etl_injection_missing_params_witness :
    decoratedCall (fun vals => vals.length)
        [("a", none), ("b", some (PyVal.nat 5)), ("c", none)] (some []) =
      Except.error ["a", "c"] :=
  (etl_injection_missing_params (fun vals => vals.length)
    [("a", none), ("b", some (PyVal.nat 5)), ("c", none)] (some [])
    (by decide)).1 (by decide)

/-- An `Etl` instance as the injection mechanism sees it: just its
`_configuration` attribute, as set at construction or mutated since. -/
structure EtlInst where
  configuration : Option (List (String × PyVal))

/-- Invoking a decorated step on an instance: the binding is computed from
the instance's configuration as it is at call time. -/
def callStep {A : Type} (f : List PyVal → A)
    (params : List (String × Option PyVal)) (inst : EtlInst) :
    Except (List String) A :=
  decoratedCall f params inst.configuration

/-- C8: the parameter binding is recomputed from the instance's current
configuration on every invocation.  If between two calls the
configuration entry for a declared no-default parameter `k` changes from
`v1` to `v2`, and each configuration supplies every required parameter,
then each call succeeds with the bindings resolved from its own
configuration, and the binding of `k` is `v1` at the first call and `v2`
at the second — nothing of the first resolution is cached. -/
theorem etl_injection_recomputed {A : Type} (f : List PyVal → A)
    (params : List (String × Option PyVal)) (c1 c2 : List (String × PyVal))
    (k : String) (v1 v2 : PyVal)
    (hn : (params.map Prod.fst).Nodup)
    (hk : (k, (none : Option PyVal)) ∈ params)
    (h1 : dictLookup c1 k = some v1) (h2 : dictLookup c2 k = some v2)
    (hm1 : requiredMissing params (some c1) = [])
    (hm2 : requiredMissing params (some c2) = []) :
    callStep f params (EtlInst.mk (some c1)) =
      Except.ok (f (params.map (fun p => resolveParam (some c1) p))) ∧
    callStep f params (EtlInst.mk (some c2)) =
      Except.ok (f (params.map (fun p => resolveParam (some c2) p))) ∧
    resolveParam (some c1) (k, none) = v1 ∧
    resolveParam (some c2) (k, none) = v2 := by
  have e1 := inject_configuration_eq params (some c1) hn
  have e2 := inject_configuration_eq params (some c2) hn
  refine ⟨?_, ?_, ?_, ?_⟩
  · simp [callStep, decoratedCall, e1, hm1]
  · simp [callStep, decoratedCall, e2, hm2]
  · simp [resolveParam, h1]
  · simp [resolveParam, h2]

/-- Witness for C8: parameter `k` (no default), configuration mutated from
`{k: 1}` to `{k: 2}` between the two calls; the first call binds `k` to
`1`, the second to `2`. -/
theorem etl_injection_recomputed_witness :
    callStep (fun vals => vals) [("k", none)] (EtlInst.mk (some [("k", PyVal.nat 1)])) =
      Except.ok [PyVal.nat 1] ∧
    callStep (fun vals => vals) [("k", none)] (EtlInst.mk (some [("k", PyVal.nat 2)])) =
      Except.ok [PyVal.nat 2] := by
  have h := etl_injection_recomputed (fun vals => vals) [("k", none)]
    [("k", PyVal.nat 1)] [("k", PyVal.nat 2)] "k" (PyVal.nat 1) (PyVal.nat 2)
    (by decide) (by decide) (by decide) (by decide) (by decide) (by decide)
  exact ⟨h.1, h.2.1⟩

/-!
## Structural capability checks (`__subclasshook__` of `processor.py`,
`source.py`, `sink.py`, `store.py`)

A candidate type is modelled by the predicate `callables : String → Bool`,
true on the operation names the type exposes as callables (merging the
`hasattr`/`callable` pair of checks).  Each hook returns `some true` when
every required callable is present and `none` (Python `NotImplemented`)
otherwise, in which case `issubclass` falls back to nominal inheritance —
absent here, since the claim concerns recognition without inheritance. -/

def processorSubclasshook (callables : String → Bool) : Option Bool :=
  if callables "process" then some true else none

def sourceSubclasshook (callables : String → Bool) : Option Bool :=
  if callables "get" && callables "list" then some true else none

def sinkSubclasshook (callables : String → Bool) : Option Bool :=
  if callables "put" && callables "delete" then some true else none

def storeSubclasshook (callables : String → Bool) : Option Bool :=
  if callables "get" && callables "delete" && callables "save" &&
      callables "update" then some true else none

/-- The four roles of the repository. -/
inductive Role where
  | processor
  | source
  | sink
  | store
deriving DecidableEq, Repr

/-- Dispatch to the role's own `__subclasshook__`. -/
def roleHook : Role → (String → Bool) → Option Bool
  | Role.processor => processorSubclasshook
  | Role.source => sourceSubclasshook
  | Role.sink => sinkSubclasshook
  | Role.store => storeSubclasshook

/-- The operation names each role's hook requires. -/
def requiredOps : Role → List String
  | Role.processor => ["process"]
  | Role.source => ["get", "list"]
  | Role.sink => ["put", "delete"]
  | Role.store => ["get", "delete", "save", "update"]

/-- Outcome of `issubclass` for a candidate with no nominal inheritance:
the hook's verdict, with `NotImplemented` falling back to `False`. -/
def recognized (r : Role) (callables : String → Bool) : Bool :=
  match roleHook r callables with
  | some b => b
  | none => false

/-- C9: for every role, a type exposing all of the role's required
operation names as callables is recognized by the role's capability check
with no nominal inheritance, and a type missing any one required callable
is not recognized. -/
theorem role_structural_recognition (r : Role) (callables : String → Bool) :
    ((∀ op ∈ requiredOps r, callables op = true) →
      recognized r callables = true) ∧
    (∀ op ∈ requiredOps r, callables op = false →
      recognized r callables = false) := by
  cases r with
  | processor =>
    refine ⟨?_, ?_⟩
    · intro hall
      have h := hall "process" (by simp [requiredOps])
      simp [recognized, roleHook, processorSubclasshook, h]
    · intro op hop hmiss
      simp only [requiredOps, List.mem_singleton] at hop
      subst hop
      simp [recognized, roleHook, processorSubclasshook, hmiss]
  | source =>
    refine ⟨?_, ?_⟩
    · intro hall
      have hg := hall "get" (by simp [requiredOps])
      have hl := hall "list" (by simp [requiredOps])
      simp [recognized, roleHook, sourceSubclasshook, hg, hl]
    · intro op hop hmiss
      simp only [requiredOps, List.mem_cons, List.mem_singleton,
        List.not_mem_nil, or_false] at hop
      rcases hop with rfl | rfl <;>
        simp [recognized, roleHook, sourceSubclasshook, hmiss]
  | sink =>
    refine ⟨?_, ?_⟩
    · intro hall
      have hp := hall "put" (by simp [requiredOps])
      have hd := hall "delete" (by simp [requiredOps])
      simp [recognized, roleHook, sinkSubclasshook, hp, hd]
    · intro op hop hmiss
      simp only [requiredOps, List.mem_cons, List.mem_singleton,
        List.not_mem_nil, or_false] at hop
      rcases hop with rfl | rfl <;>
        simp [recognized, roleHook, sinkSubclasshook, hmiss]
  | store =>
    refine ⟨?_, ?_⟩
    · intro hall
      have hg := hall "get" (by simp [requiredOps])
      have hd := hall "delete" (by simp [requiredOps])
      have hs := hall "save" (by simp [requiredOps])
      have hu := hall "update" (by simp [requiredOps])
      simp [recognized, roleHook, storeSubclasshook, hg, hd, hs, hu]
    · intro op hop hmiss
      simp only [requiredOps, List.mem_cons, List.mem_singleton,
        List.not_mem_nil, or_false] at hop
      rcases hop with rfl | rfl | rfl | rfl <;>
        simp [recognized, roleHook, storeSubclasshook, hmiss]

/-- Witness for C9 at the Source role: a type exposing exactly `get` and
`list` is recognized; one exposing only `get` (missing `list`) is not. -/
theorem role_structural_recognition_witness :
    recognized Role.source (fun s => s == "get" || s == "list") = true ∧
    recognized Role.source (fun s => s == "get") = false :=
  ⟨(role_structural_recognition Role.source
      (fun s => s == "get" || s == "list")).1 (by decide),
   (role_structural_recognition Role.source (fun s => s == "get")).2
      "list" (by decide) (by decide)⟩

end DataopsAbs
